import Mathlib

/-!
Verification development for the regular hypervolume-based evolutionary
algorithm example (examples/ga/mo_rhv.py).

The decision space and the two-objective space are embedded with rational
scalars.  An individual carries a decision vector, a primary two-objective
fitness (minimisation, weights (-1, -1)) and a secondary scalar
hypervolume-contribution fitness (weight (1,)); an `Option` value models
DEAP's validity flag (`none` = invalid / deleted values).
-/

/-- Objective points are pairs of rationals (the example is two-objective). -/
abbrev Pt := ℚ × ℚ

/-- An individual: decision vector, primary fitness (creator.FitnessMin,
weights (-1.0, -1.0)) and secondary hypervolume fitness (creator.FitnessHV,
weights (1.0,)).  `none` models an invalid (deleted) fitness. -/
structure Ind where
  vec : List ℚ
  fitness : Option Pt
  fitness_hv : Option ℚ

/-- Raw objective values stored in the primary fitness ((0,0) when invalid;
claims about values carry a validity hypothesis). -/
def fitValues (ind : Ind) : Pt :=
  match ind.fitness with
  | some v => v
  | none => (0, 0)

/-- Modelled from the spec: deap.base.Fitness (not under the sources) stores
weighted values, maximisation-via-negation — wvalues = values * weights with
weights (-1.0, -1.0) for the primary fitness. -/
def wvaluesOf (ind : Ind) : Pt :=
  ((-1) * (fitValues ind).1, (-1) * (fitValues ind).2)

/-- The row of the wobj array built by hypervolume_contrib: the individual's
wvalues multiplied by -1 (mo_rhv.py line 67). -/
def wobjOf (ind : Ind) : Pt :=
  ((-1) * (wvaluesOf ind).1, (-1) * (wvaluesOf ind).2)

/-- The wobj array of hypervolume_contrib: one row per front member. -/
def wobjList (front : List Ind) : List Pt :=
  front.map wobjOf

/-- Insert a point into a list sorted by ascending first coordinate. -/
def insertByX (p : Pt) : List Pt → List Pt
  | [] => [p]
  | q :: qs => if p.1 ≤ q.1 then p :: q :: qs else q :: insertByX p qs

/-- Sort points by ascending first coordinate (insertion sort). -/
def sortByX : List Pt → List Pt
  | [] => []
  | p :: ps => insertByX p (sortByX ps)

/-- Sweep step for the two-dimensional hypervolume: `cur` is the current
sweep position whose second coordinate is the running minimum of the second
coordinates seen so far; the points still to process are sorted by ascending
first coordinate. -/
def sweep (ref : Pt) : Pt → List Pt → ℚ
  | cur, [] => (ref.1 - cur.1) * (ref.2 - cur.2)
  | cur, q :: qs => (q.1 - cur.1) * (ref.2 - cur.2) + sweep ref (q.1, min cur.2 q.2) qs

/-- Modelled from the spec: HypervolumeEngine (deap.tools.indicator.hv is not
under the sources).  Exact Lebesgue measure, under the minimisation
convention, of the union of the axis-aligned boxes spanned between each point
and the reference corner, for the two-objective case: sort by ascending first
coordinate and sweep, accumulating slabs against the running minimum of the
second coordinate.  Empty point set yields 0; duplicate or dominated points
add degenerate or already-covered slabs and are not double counted. -/
def hv2 (pts : List Pt) (ref : Pt) : ℚ :=
  match sortByX pts with
  | [] => 0
  | p :: ps => sweep ref p ps

/-- Default reference point: componentwise maximum of the points plus 1 per
dimension (numpy.max(wobj, axis=0) + 1, mo_rhv.py line 70). -/
def refDefault (pts : List Pt) : Pt :=
  match pts with
  | [] => (1, 1)
  | p :: ps => (ps.foldl (fun m q => max m q.1) p.1 + 1, ps.foldl (fun m q => max m q.2) p.2 + 1)

/-- The reference point hypervolume_contrib actually uses: the supplied one,
or the derived default (mo_rhv.py lines 68-70). -/
def refUsed (front : List Ind) (ref : Option Pt) : Pt :=
  match ref with
  | some r => r
  | none => refDefault (wobjList front)

/-- hypervolume_contrib (mo_rhv.py lines 60-80): build the wobj array from
wvalues * -1, derive the reference if absent, compute the total hypervolume
once, and return for each index i the total minus the hypervolume of the
remaining points with the i-th row removed (survivors in original order). -/
def hypervolume_contrib (front : List Ind) (ref : Option Pt) : List ℚ :=
  let wobj := wobjList front
  let r := refUsed front ref
  let total_hv := hv2 wobj r
  (List.range front.length).map (fun i => total_hv - hv2 (wobj.take i ++ wobj.drop (i + 1)) r)

/-- Sort key used by toolbox.select: the secondary hypervolume-contribution
fitness (0 when unset; selection only reads it after it was assigned). -/
def keyHv (ind : Ind) : ℚ :=
  match ind.fitness_hv with
  | some v => v
  | none => 0

/-- Stable descending insertion by `keyHv`: an element is placed before the
first strictly smaller key, so earlier elements win ties. -/
def insertDesc (x : Ind) : List Ind → List Ind
  | [] => [x]
  | y :: ys => if keyHv y < keyHv x then x :: y :: ys else y :: insertDesc x ys

/-- Stable descending insertion sort by `keyHv`. -/
def sortDesc : List Ind → List Ind
  | [] => []
  | x :: xs => insertDesc x (sortDesc xs)

/-- Modelled from the spec: tools.selBest with fit_attr fitness_hv (not under
the sources) — stable sort in descending order of the hypervolume-contribution
fitness and keep the first k individuals (ties broken by original order). -/
def selBest (front : List Ind) (k : Nat) : List Ind :=
  (sortDesc front).take k

/-- Assign the secondary hypervolume fitness of one individual
(ind.fitness_hv.values = (fit_hv,)). -/
def setHv (ind : Ind) (c : ℚ) : Ind :=
  Ind.mk ind.vec ind.fitness (some c)

/-- Assign the contributions to the members of a front, pairwise in order
(the zip loop of mo_rhv.py lines 154-155). -/
def assignHv (front : List Ind) (cs : List ℚ) : List Ind :=
  (front.zip cs).map (fun p => setHv p.1 p.2)

/-- The truncated front after its hypervolume contributions were assigned. -/
def scoredFront (front : List Ind) : List Ind :=
  assignHv front (hypervolume_contrib front none)

/-- Total number of individuals over a list of fronts. -/
def sumLens (fronts : List (List Ind)) : Nat :=
  (fronts.map List.length).sum

/-- The environmental-selection loop of mo_rhv.py lines 145-159, with the
running `chosen` list made explicit: admit each front wholly while it fits;
at the first front that does not fit, assign hypervolume contributions to its
members, fill the remaining places with toolbox.select, and stop.  Returns
the chosen individuals and the post-state of the fronts (the truncated front
carries the assigned secondary fitness). -/
def envSelectAux (mu : Nat) (chosen : List Ind) : List (List Ind) → List Ind × List (List Ind)
  | [] => (chosen, [])
  | front :: rest =>
    if chosen.length + front.length ≤ mu then
      let r := envSelectAux mu (chosen ++ front) rest
      (r.1, front :: r.2)
    else
      let scored := scoredFront front
      (chosen ++ selBest scored (mu - chosen.length), scored :: rest)

/-- Environmental selection started with an empty chosen list. -/
def envSelect (fronts : List (List Ind)) (mu : Nat) : List Ind × List (List Ind) :=
  envSelectAux mu [] fronts

/-- The SELECTING stage of mo_rhv.py lines 143-161: combine parents and
offspring, run the non-dominated sorter (kept abstract) on the combined pool
with size limit len(pop), then run the environmental selection. -/
def selectStage (sort : List Ind → Nat → List (List Ind)) (mu : Nat)
    (parents offspring : List Ind) : List Ind :=
  let pool := parents ++ offspring
  (envSelectAux mu [] (sort pool pool.length)).1

/-- A probe sorter that returns the whole pool as a single front exactly when
the size limit it receives equals the pool length, and no front otherwise;
it distinguishes which size limit the selection stage passes. -/
def probeSort (pool : List Ind) (k : Nat) : List (List Ind) :=
  if k = pool.length then [pool] else []

/-- Population size (mo_rhv.py line 98). -/
def MU : Nat := 100

/-- Number of generations (mo_rhv.py line 97). -/
def NGEN : Nat := 250

/-- Crossover probability (mo_rhv.py line 99). -/
def CXPB : ℚ := 9 / 10

/-- Placeholder individual used as the default of list indexing. -/
def dInd : Ind := Ind.mk [] none none

/-- Model of toolbox.clone: a field-by-field copy of an individual. -/
def cloneInd (ind : Ind) : Ind :=
  Ind.mk ind.vec ind.fitness ind.fitness_hv

/-- Modelled from the spec: the VARYING stage draws a random permutation of
the current population equal in length to the population (tools.selRandom is
not under the sources); the randomness is externalised as the list of drawn
indices. -/
def selRandomPerm (perm : List Nat) (pop : List Ind) : List Ind :=
  perm.map (fun i => pop.getD i dInd)

/-- del ind.fitness.values: invalidate the primary fitness. -/
def delFitness (ind : Ind) : Ind :=
  Ind.mk ind.vec none ind.fitness_hv

/-- The external collaborators of the evolution loop, each deterministic in
the explicitly threaded random state: the objective function, the random
permutation draw, random.random(), the variation operators, the
non-dominated sorter and the population initialiser. -/
structure Ops (σ : Type) where
  evalF : List ℚ → Pt
  drawPerm : σ → Nat → List Nat × σ
  rand : σ → ℚ × σ
  mate : σ → Ind → Ind → (Ind × Ind) × σ
  mutate : σ → Ind → Ind × σ
  sort : List Ind → Nat → List (List Ind)
  initPop : σ → Nat → List Ind × σ

/-- The pairwise variation loop of mo_rhv.py lines 128-134: for each
consecutive pair draw random.random(), apply crossover when it is at most
CXPB, mutate both individuals unconditionally, and delete both primary
fitnesses unconditionally; a trailing unpaired individual is left untouched. -/
def varyPairs (σ : Type) (ops : Ops σ) (cxpb : ℚ) : σ → List Ind → List Ind × σ
  | s, i1 :: i2 :: rest =>
    let r := ops.rand s
    let m := if r.1 ≤ cxpb then ops.mate r.2 i1 i2 else ((i1, i2), r.2)
    let m1 := ops.mutate m.2 m.1.1
    let m2 := ops.mutate m1.2 m.1.2
    let tail := varyPairs σ ops cxpb m2.2 rest
    (delFitness m1.1 :: delFitness m2.1 :: tail.1, tail.2)
  | s, l => (l, s)

/-- Evaluate one individual if its primary fitness is invalid. -/
def evalInd (σ : Type) (ops : Ops σ) (ind : Ind) : Ind :=
  match ind.fitness with
  | some _ => ind
  | none => Ind.mk ind.vec (some (ops.evalF ind.vec)) ind.fitness_hv

/-- Evaluate every individual with an invalid primary fitness
(mo_rhv.py lines 136-140). -/
def evaluateAll (σ : Type) (ops : Ops σ) (l : List Ind) : List Ind :=
  l.map (evalInd σ ops)

/-- Number of individuals with an invalid primary fitness (the evals count
recorded per generation). -/
def invalidCount (l : List Ind) : Nat :=
  (l.filter (fun i => i.fitness.isNone)).length

/-- One generation of mo_rhv.py lines 123-164: draw and clone the offspring
pool, vary it pairwise, evaluate the invalid individuals, combine parents and
offspring, sort with size limit len(pool), run environmental selection.
Returns ((new population, new random state), evals count). -/
def genStep (σ : Type) (ops : Ops σ) (mu : Nat) (cxpb : ℚ) (s : σ) (pop : List Ind) :
    (List Ind × σ) × Nat :=
  let d := ops.drawPerm s pop.length
  let off0 := (selRandomPerm d.1 pop).map cloneInd
  let v := varyPairs σ ops cxpb d.2 off0
  let evals := invalidCount v.1
  let off := evaluateAll σ ops v.1
  let pool := pop ++ off
  let fronts := ops.sort pool pool.length
  (((envSelectAux mu [] fronts).1, v.2), evals)

/-- The populations produced by n successive generations. -/
def runTrace (σ : Type) (ops : Ops σ) (mu : Nat) (cxpb : ℚ) : Nat → σ → List Ind → List (List Ind)
  | 0, _, _ => []
  | n + 1, s, pop =>
    let g := genStep σ ops mu cxpb s pop
    g.1.1 :: runTrace σ ops mu cxpb n g.1.2 g.1.1

/-- The whole run of main (mo_rhv.py lines 94-169): seed the random state,
initialise and evaluate the population, then iterate the generational loop;
the observable output is the sequence of populations, generation 0 first. -/
def mainTrace (σ : Type) (ops : Ops σ) (mu ngen : Nat) (cxpb : ℚ) (seed : σ) : List (List Ind) :=
  let p := ops.initPop seed mu
  let pop0 := evaluateAll σ ops p.1
  pop0 :: runTrace σ ops mu cxpb (ngen - 1) p.2 pop0

/-- A concrete, trivial instantiation of the external collaborators, used by
the witnesses. -/
def opsT : Ops Unit :=
  Ops.mk (fun _ => (0, 0)) (fun s n => (List.range n, s)) (fun s => (1, s))
    (fun s a b => ((a, b), s)) (fun s a => (a, s)) (fun l _ => [l])
    (fun s n => (List.replicate n dInd, s))

/-- Individual with objective vector (1, 5) (spec scenario, section 8). -/
def indA : Ind := Ind.mk [] (some (1, 5)) none

/-- Individual with objective vector (2, 3) (spec scenario, section 8). -/
def indB : Ind := Ind.mk [] (some (2, 3)) none

/-- Individual with objective vector (4, 1) (spec scenario, section 8). -/
def indC : Ind := Ind.mk [] (some (4, 1)) none

theorem insertDesc_perm (x : Ind) (l : List Ind) : (insertDesc x l).Perm (x :: l) := by
  induction l with
  | nil => simp [insertDesc]
  | cons y ys ih =>
    by_cases h : keyHv y < keyHv x
    · simp [insertDesc, h]
    · simp only [insertDesc, if_neg h]
      exact (ih.cons y).trans (List.Perm.swap x y ys)

theorem sortDesc_perm (l : List Ind) : (sortDesc l).Perm l := by
  induction l with
  | nil => simp [sortDesc]
  | cons x xs ih => exact (insertDesc_perm x (sortDesc xs)).trans (ih.cons x)

theorem insertDesc_pairwise (x : Ind) (l : List Ind)
    (h : l.Pairwise (fun a b => keyHv b ≤ keyHv a)) :
    (insertDesc x l).Pairwise (fun a b => keyHv b ≤ keyHv a) := by
  induction l with
  | nil => simp [insertDesc]
  | cons y ys ih =>
    rcases List.pairwise_cons.mp h with ⟨hy, hys⟩
    by_cases hc : keyHv y < keyHv x
    · simp only [insertDesc, if_pos hc]
      refine List.pairwise_cons.mpr ⟨?_, h⟩
      intro z hz
      rcases List.mem_cons.mp hz with rfl | hz2
      · exact hc.le
      · exact (hy z hz2).trans hc.le
    · simp only [insertDesc, if_neg hc]
      refine List.pairwise_cons.mpr ⟨?_, ih hys⟩
      intro z hz
      rcases List.mem_cons.mp ((insertDesc_perm x ys).mem_iff.mp hz) with rfl | hz2
      · exact le_of_not_lt hc
      · exact hy z hz2

theorem sortDesc_pairwise (l : List Ind) :
    (sortDesc l).Pairwise (fun a b => keyHv b ≤ keyHv a) := by
  induction l with
  | nil => simp [sortDesc]
  | cons x xs ih => exact insertDesc_pairwise x (sortDesc xs) ih

theorem selBest_le (front : List Ind) (k : Nat) (x y : Ind)
    (hx : x ∈ selBest front k) (hy : y ∈ front) (hny : y ∉ selBest front k) :
    keyHv y ≤ keyHv x := by
  have hsy : y ∈ sortDesc front := (sortDesc_perm front).mem_iff.mpr hy
  have hpw := sortDesc_pairwise front
  rw [← List.take_append_drop k (sortDesc front)] at hpw
  have h3 := (List.pairwise_append.mp hpw).2.2
  have hy2 : y ∈ (sortDesc front).take k ++ (sortDesc front).drop k := by
    rw [List.take_append_drop]; exact hsy
  rcases List.mem_append.mp hy2 with h | h
  · exact absurd h hny
  · exact h3 x hx y h

theorem selBest_length (front : List Ind) (k : Nat) :
    (selBest front k).length = min k front.length := by
  simp [selBest, List.length_take, (sortDesc_perm front).length_eq]

theorem hvc_length (front : List Ind) (r : Option Pt) :
    (hypervolume_contrib front r).length = front.length := by
  simp [hypervolume_contrib]

theorem assignHv_length (front : List Ind) (cs : List ℚ) (h : cs.length = front.length) :
    (assignHv front cs).length = front.length := by
  simp [assignHv, List.length_zip, h]

theorem scoredFront_length (front : List Ind) : (scoredFront front).length = front.length :=
  assignHv_length front _ (hvc_length front none)

theorem assignHv_frame (front : List Ind) (cs : List ℚ) (h : cs.length = front.length) :
    (assignHv front cs).map (fun x => (x.vec, x.fitness)) =
      front.map (fun x => (x.vec, x.fitness)) := by
  induction front generalizing cs with
  | nil => simp [assignHv]
  | cons a t ih =>
    cases cs with
    | nil => simp at h
    | cons c cst =>
      simp only [assignHv, List.zip_cons_cons, List.map_cons, setHv]
      simp only [List.length_cons, Nat.succ.injEq] at h
      exact congrArg (List.cons (a.vec, a.fitness)) (ih cst h)

theorem assignHv_hv (front : List Ind) (cs : List ℚ) (h : cs.length = front.length) :
    (assignHv front cs).map (fun x => x.fitness_hv) = cs.map some := by
  induction front generalizing cs with
  | nil => cases cs with
    | nil => simp [assignHv]
    | cons c cst => simp at h
  | cons a t ih =>
    cases cs with
    | nil => simp at h
    | cons c cst =>
      simp only [assignHv, List.zip_cons_cons, List.map_cons, setHv]
      simp only [List.length_cons, Nat.succ.injEq] at h
      exact congrArg (List.cons (some c)) (ih cst h)

theorem sumLens_cons (front : List Ind) (rest : List (List Ind)) :
    sumLens (front :: rest) = front.length + sumLens rest := by
  simp [sumLens]

theorem envAux_all (mu : Nat) (fronts : List (List Ind)) :
    ∀ chosen, chosen.length + sumLens fronts ≤ mu →
      envSelectAux mu chosen fronts = (chosen ++ fronts.flatten, fronts) := by
  induction fronts with
  | nil => intro chosen h; simp [envSelectAux]
  | cons front rest ih =>
    intro chosen h
    rw [sumLens_cons] at h
    have hc : chosen.length + front.length ≤ mu := by omega
    simp only [envSelectAux, if_pos hc]
    rw [ih (chosen ++ front) (by simp; omega)]
    simp

theorem envAux_len (mu : Nat) (fronts : List (List Ind)) :
    ∀ chosen, chosen.length ≤ mu → mu ≤ chosen.length + sumLens fronts →
      (envSelectAux mu chosen fronts).1.length = mu := by
  induction fronts with
  | nil =>
    intro chosen h1 h2
    simp only [sumLens, List.map_nil, List.sum_nil, Nat.add_zero] at h2
    simp only [envSelectAux]
    omega
  | cons front rest ih =>
    intro chosen h1 h2
    rw [sumLens_cons] at h2
    by_cases hc : chosen.length + front.length ≤ mu
    · simp only [envSelectAux, if_pos hc]
      exact ih (chosen ++ front) (by simp; omega) (by simp; omega)
    · simp only [envSelectAux, if_neg hc]
      have hlen : (selBest (scoredFront front) (mu - chosen.length)).length = mu - chosen.length := by
        rw [selBest_length, scoredFront_length]
        omega
      simp only [List.length_append, hlen]
      omega

theorem envAux_mem_chosen (mu : Nat) (fronts : List (List Ind)) :
    ∀ chosen x, x ∈ chosen → x ∈ (envSelectAux mu chosen fronts).1 := by
  induction fronts with
  | nil => intro chosen x hx; simpa [envSelectAux] using hx
  | cons front rest ih =>
    intro chosen x hx
    by_cases hc : chosen.length + front.length ≤ mu
    · simp only [envSelectAux, if_pos hc]
      exact ih (chosen ++ front) x (List.mem_append.mpr (Or.inl hx))
    · simp only [envSelectAux, if_neg hc]
      exact List.mem_append.mpr (Or.inl hx)

theorem envAux_admitted (mu : Nat) (fronts : List (List Ind)) :
    ∀ chosen i x, chosen.length + sumLens (fronts.take (i + 1)) ≤ mu →
      x ∈ fronts.getD i [] → x ∈ (envSelectAux mu chosen fronts).1 := by
  induction fronts with
  | nil => intro chosen i x _ hx; simp [List.getD] at hx
  | cons front rest ih =>
    intro chosen i x h hx
    cases i with
    | zero =>
      have h' : chosen.length + front.length ≤ mu := by
        simp [sumLens] at h
        omega
      simp only [List.getD_cons_zero] at hx
      simp only [envSelectAux]
      rw [if_pos h']
      exact envAux_mem_chosen mu rest (chosen ++ front) x (List.mem_append.mpr (Or.inr hx))
    | succ j =>
      simp only [List.take_succ_cons, sumLens_cons] at h
      have hc : chosen.length + front.length ≤ mu := by omega
      simp only [envSelectAux, if_pos hc]
      refine ih (chosen ++ front) j x ?_ ?_
      · simp only [List.length_append]; omega
      · simpa using hx

theorem envAux_trunc (mu : Nat) (fronts : List (List Ind)) :
    ∀ chosen i, chosen.length + sumLens (fronts.take i) ≤ mu →
      mu < chosen.length + sumLens (fronts.take i) + (fronts.getD i []).length →
      envSelectAux mu chosen fronts =
        (chosen ++ (fronts.take i).flatten ++
           selBest (scoredFront (fronts.getD i [])) (mu - (chosen.length + sumLens (fronts.take i))),
         fronts.take i ++ scoredFront (fronts.getD i []) :: fronts.drop (i + 1)) := by
  induction fronts with
  | nil =>
    intro chosen i h1 h2
    exfalso
    simp [sumLens, List.getD] at h1 h2
    omega
  | cons front rest ih =>
    intro chosen i h1 h2
    cases i with
    | zero =>
      simp only [List.take_zero, sumLens, List.map_nil, List.sum_nil, Nat.add_zero,
        List.getD_cons_zero] at h1 h2
      have hc : ¬ (chosen.length + front.length ≤ mu) := by omega
      simp only [envSelectAux, if_neg hc]
      simp [sumLens]
    | succ j =>
      simp only [List.take_succ_cons, sumLens_cons, List.getD_cons_succ] at h1 h2 ⊢
      have hc : chosen.length + front.length ≤ mu := by omega
      simp only [envSelectAux, if_pos hc]
      rw [ih (chosen ++ front) j (by simp only [List.length_append]; omega)
        (by simp only [List.length_append]; omega)]
      simp only [List.length_append, List.flatten_cons, List.drop_succ_cons]
      rw [show chosen.length + (front.length + sumLens (List.take j rest)) =
        chosen.length + front.length + sumLens (List.take j rest) from by omega]
      simp [List.append_assoc]

theorem foldl_max_init (g : Pt → ℚ) (l : List Pt) (a : ℚ) :
    a ≤ l.foldl (fun m q => max m (g q)) a := by
  induction l generalizing a with
  | nil => simp
  | cons q t ih =>
    simp only [List.foldl_cons]
    exact le_trans (le_max_left a (g q)) (ih (max a (g q)))

theorem foldl_max_mem_le (g : Pt → ℚ) (l : List Pt) (a : ℚ) :
    ∀ p ∈ l, g p ≤ l.foldl (fun m q => max m (g q)) a := by
  induction l generalizing a with
  | nil => simp
  | cons q t ih =>
    intro p hp
    simp only [List.foldl_cons]
    rcases List.mem_cons.mp hp with rfl | hp2
    · exact le_trans (le_max_right a (g p)) (foldl_max_init g t (max a (g p)))
    · exact ih (max a (g q)) p hp2

theorem foldl_max_cases (g : Pt → ℚ) (l : List Pt) (a : ℚ) :
    l.foldl (fun m q => max m (g q)) a = a ∨
      ∃ p ∈ l, l.foldl (fun m q => max m (g q)) a = g p := by
  induction l generalizing a with
  | nil => exact Or.inl rfl
  | cons q t ih =>
    simp only [List.foldl_cons]
    rcases ih (max a (g q)) with h | ⟨p, hp, he⟩
    · rcases max_choice a (g q) with hm | hm
      · exact Or.inl (h.trans hm)
      · exact Or.inr ⟨q, List.mem_cons_self q t, h.trans hm⟩
    · exact Or.inr ⟨p, List.mem_cons_of_mem q hp, he⟩

theorem refDefault_spec (pts : List Pt) (hne : pts ≠ []) :
    (∀ p ∈ pts, p.1 + 1 ≤ (refDefault pts).1 ∧ p.2 + 1 ≤ (refDefault pts).2) ∧
      (∃ p ∈ pts, (refDefault pts).1 = p.1 + 1) ∧
      (∃ p ∈ pts, (refDefault pts).2 = p.2 + 1) := by
  cases pts with
  | nil => exact absurd rfl hne
  | cons p ps =>
    refine ⟨?_, ?_, ?_⟩
    · intro q hq
      rcases List.mem_cons.mp hq with rfl | hq2
      · exact ⟨add_le_add_right (foldl_max_init (fun r => r.1) ps q.1) 1,
          add_le_add_right (foldl_max_init (fun r => r.2) ps q.2) 1⟩
      · exact ⟨add_le_add_right (foldl_max_mem_le (fun r => r.1) ps p.1 q hq2) 1,
          add_le_add_right (foldl_max_mem_le (fun r => r.2) ps p.2 q hq2) 1⟩
    · rcases foldl_max_cases (fun r => r.1) ps p.1 with h | ⟨q, hq, he⟩
      · exact ⟨p, List.mem_cons_self p ps, congrArg (· + 1) h⟩
      · exact ⟨q, List.mem_cons_of_mem p hq, congrArg (· + 1) he⟩
    · rcases foldl_max_cases (fun r => r.2) ps p.2 with h | ⟨q, hq, he⟩
      · exact ⟨p, List.mem_cons_self p ps, congrArg (· + 1) h⟩
      · exact ⟨q, List.mem_cons_of_mem p hq, congrArg (· + 1) he⟩

/-- Claim C5: hypervolume_contrib returns one value per front member, in the
input order; the i-th value equals the hypervolume of the whole transformed
front minus the hypervolume of the remaining points with the i-th removed,
survivors kept in their original order; and when no reference is supplied the
reference in force is the componentwise maximum of the transformed points
plus 1 in each dimension. -/
theorem c5_contrib_structure (front : List Ind) (ref : Option Pt) :
    (hypervolume_contrib front ref).length = front.length ∧
    (∀ i, i < front.length →
      (hypervolume_contrib front ref).getD i 0 =
        hv2 (wobjList front) (refUsed front ref) -
          hv2 ((wobjList front).eraseIdx i) (refUsed front ref)) ∧
    (ref = none → front ≠ [] →
      (∀ p ∈ wobjList front,
          p.1 + 1 ≤ (refUsed front ref).1 ∧ p.2 + 1 ≤ (refUsed front ref).2) ∧
        (∃ p ∈ wobjList front, (refUsed front ref).1 = p.1 + 1) ∧
        (∃ p ∈ wobjList front, (refUsed front ref).2 = p.2 + 1)) := by
  refine ⟨hvc_length front ref, ?_, ?_⟩
  · intro i hi
    rw [List.eraseIdx_eq_take_drop_succ]
    simp only [hypervolume_contrib]
    rw [List.getD_eq_getElem?_getD, List.getElem?_map, List.getElem?_range hi]
    rfl
  · intro hr hne
    have hne2 : wobjList front ≠ [] := by
      cases front with
      | nil => exact absurd rfl hne
      | cons a t => simp [wobjList]
    have hru : refUsed front ref = refDefault (wobjList front) := by rw [hr]; rfl
    rw [hru]
    exact refDefault_spec (wobjList front) hne2

theorem c5_witness :
    (hypervolume_contrib [indA] none).length = [indA].length ∧
      (hypervolume_contrib [indA] none).getD 0 0 =
        hv2 (wobjList [indA]) (refUsed [indA] none) -
          hv2 ((wobjList [indA]).eraseIdx 0) (refUsed [indA] none) :=
  ⟨(c5_contrib_structure [indA] none).1,
   (c5_contrib_structure [indA] none).2.1 0 (by decide)⟩

/-- Claim C6: for the front with objective vectors (1,5), (2,3), (4,1) the
derived default reference point is (5,6), the total hypervolume is 12, the
hypervolume of the survivors after removing (2,3) is 8, and
hypervolume_contrib returns the contributions [1, 4, 2] — in particular the
contribution of (2,3) is 12 - 8 = 4. -/
theorem c6_golden :
    refUsed [indA, indB, indC] none = (5, 6) ∧
    hv2 (wobjList [indA, indB, indC]) (5, 6) = 12 ∧
    hv2 [(1, 5), (4, 1)] (5, 6) = 8 ∧
    hypervolume_contrib [indA, indB, indC] none = [1, 4, 2] ∧
    (hypervolume_contrib [indA, indB, indC] none).getD 1 0 =
      hv2 (wobjList [indA, indB, indC]) (5, 6) - hv2 [(1, 5), (4, 1)] (5, 6) := by
  refine ⟨?_, ?_, ?_, ?_, ?_⟩ <;>
    norm_num [refUsed, refDefault, hypervolume_contrib, wobjList, wobjOf, wvaluesOf,
      fitValues, indA, indB, indC, hv2, sortByX, insertByX, sweep, List.range_succ]

/-- Claim C7: with primary weights (-1, -1), the row of the array passed to
the hypervolume routine — the individual's wvalues multiplied by -1 — equals
the individual's raw objective values, for every individual of every front
scored by hypervolume_contrib. -/
theorem c7_transform :
    (∀ (ind : Ind) (v : Pt), ind.fitness = some v → wobjOf ind = v) ∧
      (∀ front : List Ind, (∀ ind ∈ front, ind.fitness.isSome = true) →
        wobjList front = front.map fitValues) := by
  constructor
  · intro ind v hv
    simp [wobjOf, wvaluesOf, fitValues, hv]
  · intro front _
    refine List.map_congr_left ?_
    intro ind _
    simp [wobjOf, wvaluesOf, Prod.ext_iff]

theorem c7_witness :
    wobjOf indA = (1, 5) ∧ wobjList [indA] = [indA].map fitValues :=
  ⟨c7_transform.1 indA (1, 5) rfl, c7_transform.2 [indA] (by simp [indA])⟩

/-- Claim C1 counterexample: with a single front of one individual and the
target size MU = 100, the total candidate count (1) is strictly below MU, yet
the environmental-selection loop returns normally with the one-individual
population — silently shorter than MU, with no failure of any kind — refuting
the claim that such a call must fail loudly rather than return a short
population. -/
theorem c1_counterexample :
    sumLens [[dInd]] < MU ∧ (envSelect [[dInd]] MU).1 = [dInd] ∧
      (envSelect [[dInd]] MU).1.length < MU := by
  refine ⟨by decide, rfl, by decide⟩

/-- Claim C1 amended: when the total number of individuals across the fronts
is strictly below the target size, the environmental-selection loop admits
every front and silently returns all candidates in front order — a population
strictly shorter than the target — with no error. -/
theorem c1_amended (fronts : List (List Ind)) (mu : Nat) (h : sumLens fronts < mu) :
    (envSelect fronts mu).1 = fronts.flatten ∧ (envSelect fronts mu).1.length < mu := by
  have hall := envAux_all mu fronts [] (by simpa using h.le)
  rw [envSelect, hall]
  refine ⟨by simp, ?_⟩
  simpa [List.length_flatten, sumLens] using h

theorem c1_amended_witness :
    sumLens [[dInd], [dInd]] < MU ∧
      ((envSelect [[dInd], [dInd]] MU).1 = [[dInd], [dInd]].flatten ∧
        (envSelect [[dInd], [dInd]] MU).1.length < MU) :=
  ⟨by decide, c1_amended [[dInd], [dInd]] MU (by decide)⟩

/-- Claim C2 counterexample: the selection stage passes the combined pool's
own length as the sorter's size limit, not the target size mu: a probe sorter
that distinguishes the two limits makes the stage's actual result differ from
the result it would produce had mu been passed, already for parents and
offspring of size mu = 1. -/
theorem c2_counterexample :
    selectStage probeSort 1 [dInd] [dInd] ≠
      (envSelectAux 1 [] (probeSort ([dInd] ++ [dInd]) 1)).1 := by
  intro hEq
  have h1 : (selectStage probeSort 1 [dInd] [dInd]).length = 1 := by
    have hform : selectStage probeSort 1 [dInd] [dInd] =
        (envSelectAux 1 [] [[dInd, dInd]]).1 := rfl
    rw [hform]
    exact envAux_len 1 [[dInd, dInd]] [] (by decide) (by decide)
  have h2 : ((envSelectAux 1 [] (probeSort ([dInd] ++ [dInd]) 1)).1).length = 0 := rfl
  rw [hEq] at h1
  exact absurd (h1.symm.trans h2) (by decide)

/-- Claim C2 amended: the SELECTING stage passes the combined parent+offspring
pool to the non-dominated sorter with size limit equal to the pool's own
length — 2·mu when parents and offspring each have size mu — not mu. -/
theorem c2_amended (sort : List Ind → Nat → List (List Ind)) (mu : Nat)
    (parents offspring : List Ind) (hp : parents.length = mu) (ho : offspring.length = mu) :
    selectStage sort mu parents offspring =
      (envSelectAux mu [] (sort (parents ++ offspring) (2 * mu))).1 := by
  have hlen : (parents ++ offspring).length = 2 * mu := by
    rw [List.length_append, hp, ho]
    omega
  simp only [selectStage, hlen]

theorem c2_amended_witness :
    ([dInd].length = 1 ∧ [dInd].length = 1) ∧
      selectStage probeSort 1 [dInd] [dInd] =
        (envSelectAux 1 [] (probeSort ([dInd] ++ [dInd]) (2 * 1))).1 :=
  ⟨⟨rfl, rfl⟩, c2_amended probeSort 1 [dInd] [dInd] rfl rfl⟩

/-- Claim C4: whenever the total number of candidates across the fronts is at
least the target size, the selected population has length exactly the target
size; every individual of each fully-admitted front appears in it; at the
truncated front the output consists of the admitted fronts followed by the
selection of the scored front, in which every kept individual's contribution
score is at least that of every individual excluded from that same front; and
in the concrete scenario, selecting 2 of the 3 points (1,5), (2,3), (4,1)
keeps the two highest-contribution points (2,3) and (4,1) and drops (1,5). -/
theorem c4_selection (fronts : List (List Ind)) (mu : Nat) :
    (mu ≤ sumLens fronts → (envSelect fronts mu).1.length = mu) ∧
    (∀ i x, sumLens (fronts.take (i + 1)) ≤ mu → x ∈ fronts.getD i [] →
      x ∈ (envSelect fronts mu).1) ∧
    (∀ i, sumLens (fronts.take i) ≤ mu →
      mu < sumLens (fronts.take i) + (fronts.getD i []).length →
      (envSelect fronts mu).1 = (fronts.take i).flatten ++
          selBest (scoredFront (fronts.getD i [])) (mu - sumLens (fronts.take i)) ∧
      ∀ x ∈ selBest (scoredFront (fronts.getD i [])) (mu - sumLens (fronts.take i)),
        ∀ y ∈ scoredFront (fronts.getD i []),
          y ∉ selBest (scoredFront (fronts.getD i [])) (mu - sumLens (fronts.take i)) →
            keyHv y ≤ keyHv x) ∧
    (envSelect [[indA, indB, indC]] 2).1 = [setHv indB 4, setHv indC 2] := by
  refine ⟨?_, ?_, ?_, ?_⟩
  · intro h
    exact envAux_len mu fronts [] (by simp) (by simpa using h)
  · intro i x h hx
    exact envAux_admitted mu fronts [] i x (by simpa using h) hx
  · intro i h1 h2
    constructor
    · have ht := envAux_trunc mu fronts [] i (by simpa using h1) (by simpa using h2)
      rw [envSelect, ht]
      simp
    · intro x hx y hy hny
      exact selBest_le _ _ x y hx hy hny
  · norm_num [envSelect, envSelectAux, scoredFront, assignHv, hypervolume_contrib,
      wobjList, wobjOf, wvaluesOf, fitValues, refUsed, refDefault, hv2, sortByX,
      insertByX, sweep, selBest, sortDesc, insertDesc, keyHv, setHv,
      indA, indB, indC, List.range_succ]

theorem c4_witness :
    (envSelect [[indA, indB, indC]] 2).1.length = 2 ∧
      indA ∈ (envSelect [[indA], [indB]] 2).1 ∧
      (envSelect [[indA, indB, indC]] 2).1 =
        ([[indA, indB, indC]].take 0).flatten ++
          selBest (scoredFront ([[indA, indB, indC]].getD 0 []))
            (2 - sumLens ([[indA, indB, indC]].take 0)) :=
  ⟨(c4_selection [[indA, indB, indC]] 2).1 (by decide),
   (c4_selection [[indA], [indB]] 2).2.1 0 indA (by decide) (by simp),
   ((c4_selection [[indA, indB, indC]] 2).2.2.1 0 (by decide) (by decide)).1⟩

theorem envAux_snd_len (mu : Nat) (fronts : List (List Ind)) :
    ∀ chosen, (envSelectAux mu chosen fronts).2.length = fronts.length := by
  induction fronts with
  | nil => intro chosen; rfl
  | cons front rest ih =>
    intro chosen
    by_cases hc : chosen.length + front.length ≤ mu
    · simp only [envSelectAux, if_pos hc, List.length_cons, ih]
    · simp only [envSelectAux, if_neg hc, List.length_cons]

theorem envAux_snd_frame (mu : Nat) (fronts : List (List Ind)) :
    ∀ chosen i, ((envSelectAux mu chosen fronts).2.getD i []).map (fun x => (x.vec, x.fitness)) =
      (fronts.getD i []).map (fun x => (x.vec, x.fitness)) := by
  induction fronts with
  | nil => intro chosen i; rfl
  | cons front rest ih =>
    intro chosen i
    by_cases hc : chosen.length + front.length ≤ mu
    · simp only [envSelectAux, if_pos hc]
      cases i with
      | zero => rfl
      | succ j => exact ih (chosen ++ front) j
    · simp only [envSelectAux, if_neg hc]
      cases i with
      | zero =>
        simp only [List.getD_cons_zero]
        exact assignHv_frame front _ (hvc_length front none)
      | succ j => rfl

theorem envAux_snd_untouched (mu : Nat) (fronts : List (List Ind)) :
    ∀ chosen i, chosen.length ≤ mu →
      ¬ (chosen.length + sumLens (fronts.take i) ≤ mu ∧
          mu < chosen.length + sumLens (fronts.take i) + (fronts.getD i []).length) →
      (envSelectAux mu chosen fronts).2.getD i [] = fronts.getD i [] := by
  induction fronts with
  | nil => intro chosen i _ _; rfl
  | cons front rest ih =>
    intro chosen i hch hcond
    by_cases hc : chosen.length + front.length ≤ mu
    · simp only [envSelectAux, if_pos hc]
      cases i with
      | zero => rfl
      | succ j =>
        simp only [List.getD_cons_succ]
        refine ih (chosen ++ front) j (by simpa using hc) ?_
        intro hrest
        apply hcond
        simp only [List.take_succ_cons, sumLens_cons, List.getD_cons_succ]
        simp only [List.length_append] at hrest
        omega
    · simp only [envSelectAux, if_neg hc]
      cases i with
      | zero =>
        exfalso
        apply hcond
        simp only [List.take_zero, sumLens, List.map_nil, List.sum_nil, Nat.add_zero,
          List.getD_cons_zero]
        omega
      | succ j => rfl

theorem envAux_snd_scored (mu : Nat) (fronts : List (List Ind)) :
    ∀ chosen i, chosen.length + sumLens (fronts.take i) ≤ mu →
      mu < chosen.length + sumLens (fronts.take i) + (fronts.getD i []).length →
      (envSelectAux mu chosen fronts).2.getD i [] = scoredFront (fronts.getD i []) := by
  induction fronts with
  | nil =>
    intro chosen i h1 h2
    exfalso
    simp [sumLens, List.getD] at h1 h2
    omega
  | cons front rest ih =>
    intro chosen i h1 h2
    cases i with
    | zero =>
      simp only [List.take_zero, sumLens, List.map_nil, List.sum_nil, Nat.add_zero,
        List.getD_cons_zero] at h1 h2
      have hc : ¬ (chosen.length + front.length ≤ mu) := by omega
      simp only [envSelectAux, if_neg hc, List.getD_cons_zero]
    | succ j =>
      simp only [List.take_succ_cons, sumLens_cons, List.getD_cons_succ] at h1 h2 ⊢
      have hc : chosen.length + front.length ≤ mu := by omega
      simp only [envSelectAux, if_pos hc]
      refine ih (chosen ++ front) j ?_ ?_ <;> simp only [List.length_append] <;> omega

/-- Claim C8: the selection step preserves the list of fronts in length, never
changes any individual's decision vector or primary fitness, leaves every
front other than the truncated one (in particular every fully-admitted front)
entirely unchanged — including its secondary fitness — and assigns the
hypervolume-contribution values as the secondary fitness of exactly the
individuals of the truncated front. -/
theorem c8_frame (fronts : List (List Ind)) (mu : Nat) :
    (envSelect fronts mu).2.length = fronts.length ∧
    (∀ i, ((envSelect fronts mu).2.getD i []).map (fun x => (x.vec, x.fitness)) =
      (fronts.getD i []).map (fun x => (x.vec, x.fitness))) ∧
    (∀ i, ¬ (sumLens (fronts.take i) ≤ mu ∧
        mu < sumLens (fronts.take i) + (fronts.getD i []).length) →
      (envSelect fronts mu).2.getD i [] = fronts.getD i []) ∧
    (∀ i, sumLens (fronts.take i) ≤ mu →
      mu < sumLens (fronts.take i) + (fronts.getD i []).length →
      ((envSelect fronts mu).2.getD i []).map (fun x => x.fitness_hv) =
        (hypervolume_contrib (fronts.getD i []) none).map some) := by
  refine ⟨envAux_snd_len mu fronts [], envAux_snd_frame mu fronts [], ?_, ?_⟩
  · intro i hcond
    refine envAux_snd_untouched mu fronts [] i (by simp) ?_
    simpa using hcond
  · intro i h1 h2
    have hs := envAux_snd_scored mu fronts [] i (by simpa using h1) (by simpa using h2)
    rw [envSelect, hs, scoredFront]
    exact assignHv_hv _ _ (hvc_length _ none)

theorem c8_witness :
    (envSelect [[indA, indB, indC]] 2).2.length = 1 ∧
      ((envSelect [[indA, indB, indC]] 2).2.getD 0 []).map (fun x => x.fitness_hv) =
        (hypervolume_contrib [indA, indB, indC] none).map some :=
  ⟨(c8_frame [[indA, indB, indC]] 2).1,
   (c8_frame [[indA, indB, indC]] 2).2.2.2 0 (by decide) (by decide)⟩

theorem map_getD_range (l : List Ind) :
    (List.range l.length).map (fun i => l.getD i dInd) = l := by
  induction l with
  | nil => simp
  | cons a t ih =>
    rw [List.length_cons, List.range_succ_eq_map, List.map_cons, List.map_map]
    simp only [Function.comp_def, List.getD_cons_succ, List.getD_cons_zero]
    rw [ih]

/-- Claim C3: when the offspring pool is drawn as a permutation of the index
range of the current population (the spec's random permutation, modelled with
the drawn index list made explicit), the cloned offspring pool is a
permutation of the population — every individual of the current population
appears in it exactly once, as a clone. -/
theorem c3_offspring_perm (pop : List Ind) (perm : List Nat)
    (h : perm.Perm (List.range pop.length)) :
    ((selRandomPerm perm pop).map cloneInd).Perm pop := by
  have hclone : ∀ x : Ind, cloneInd x = x := fun x => rfl
  have hmap : (selRandomPerm perm pop).map cloneInd = selRandomPerm perm pop := by
    rw [List.map_congr_left (fun a _ => hclone a)]
    exact List.map_id (selRandomPerm perm pop)
  rw [hmap]
  have hperm : (perm.map (fun i => pop.getD i dInd)).Perm
      ((List.range pop.length).map (fun i => pop.getD i dInd)) :=
    h.map (fun i => pop.getD i dInd)
  rw [map_getD_range] at hperm
  exact hperm

theorem c3_witness :
    ([1, 0].Perm (List.range ([indA, indB].length))) ∧
      ((selRandomPerm [1, 0] [indA, indB]).map cloneInd).Perm [indA, indB] :=
  ⟨by decide, c3_offspring_perm [indA, indB] [1, 0] (by decide)⟩

/-- Claim C9: the whole evolutionary run is a pure function of the seed (the
initial random state) and of the deterministic external collaborators: two
runs from equal seeds with the same configuration produce identical
population sequences across all generations. -/
theorem c9_deterministic (σ : Type) (ops : Ops σ) (mu ngen : Nat) (cxpb : ℚ)
    (s1 s2 : σ) (h : s1 = s2) :
    mainTrace σ ops mu ngen cxpb s1 = mainTrace σ ops mu ngen cxpb s2 := by
  rw [h]

theorem c9_witness :
    mainTrace Unit opsT MU 2 CXPB () = mainTrace Unit opsT MU 2 CXPB () :=
  c9_deterministic Unit opsT MU 2 CXPB () () rfl

theorem varyPairs_fitness_none (σ : Type) (ops : Ops σ) (cxpb : ℚ) :
    ∀ (l : List Ind) (s : σ), l.length % 2 = 0 →
      ∀ x ∈ (varyPairs σ ops cxpb s l).1, x.fitness = none
  | [], s, _, x, hx => by simp [varyPairs] at hx
  | [a], s, h, x, hx => by simp at h
  | a :: b :: t, s, h, x, hx => by
    simp only [varyPairs] at hx
    rcases List.mem_cons.mp hx with rfl | hx2
    · rfl
    · rcases List.mem_cons.mp hx2 with rfl | hx3
      · rfl
      · refine varyPairs_fitness_none σ ops cxpb t _ ?_ x hx3
        simp only [List.length_cons] at h
        omega

theorem varyPairs_length (σ : Type) (ops : Ops σ) (cxpb : ℚ) :
    ∀ (l : List Ind) (s : σ), ((varyPairs σ ops cxpb s l).1).length = l.length
  | [], s => rfl
  | [a], s => rfl
  | a :: b :: t, s => by
    simp only [varyPairs, List.length_cons]
    rw [varyPairs_length σ ops cxpb t]

/-- Claim C10: in the pairwise variation loop the primary fitness of both
members of each consecutive pair is deleted unconditionally — whatever the
crossover coin flip and the mutation do — so for an even-sized offspring pool
every offspring ends the variation stage with an invalid primary fitness, and
the per-generation evals count (the number of invalid offspring) equals the
full offspring count. -/
theorem c10_unconditional_invalidation (σ : Type) (ops : Ops σ) (cxpb : ℚ)
    (s : σ) (l : List Ind) (h : l.length % 2 = 0) :
    (∀ x ∈ (varyPairs σ ops cxpb s l).1, x.fitness = none) ∧
      invalidCount (varyPairs σ ops cxpb s l).1 = l.length := by
  have hall := varyPairs_fitness_none σ ops cxpb l s h
  refine ⟨hall, ?_⟩
  have hfil : (varyPairs σ ops cxpb s l).1.filter (fun i => i.fitness.isNone) =
      (varyPairs σ ops cxpb s l).1 :=
    List.filter_eq_self.mpr (fun a ha => by simp [hall a ha])
  rw [invalidCount, hfil, varyPairs_length]

theorem c10_witness :
    invalidCount (varyPairs Unit opsT CXPB () [indA, indB]).1 = [indA, indB].length :=
  (c10_unconditional_invalidation Unit opsT CXPB () [indA, indB] (by decide)).2
